import Mathlib

/-!
Shallow embedding of the Poetry Assistant (hash-table based rhyme index).

Sources: `src/hashTable.js`, `src/rhymeScorer.js`, `src/allliteration.js`,
`src/buildAssistant.js`, `src/index.js`, and the utility functions
(`extractSuffix`, `countSyllables`, `computePhoneticKey`, `isAlphabetic`)
from `utils.js` (included at the end of `src/psudocode.md`).

Conventions of the embedding:
- JavaScript numbers are modelled as `Nat` where the code only ever produces
  nonnegative integers that stay far below 2^53 (hash accumulators are reduced
  mod the table size at every step, so all arithmetic is exact in JS floats).
- JS strings are Lean `String`s; `charCodeAt` is `Char.toNat` (identical for
  the Basic Multilingual Plane, and all inputs of interest are ASCII).
- The mutable `HashTable` object is threaded explicitly: `insertHash` returns
  the updated table together with its boolean result, `searchHash` returns the
  result list together with the updated table (the JS function mutates the
  `probeSteps` field of its argument).
- `x % 0 = x` in Lean where JS produces `NaN`; in both semantics a table of
  size 0 runs zero loop iterations, so the observable behaviour agrees.
-/

/-- One bucket payload of the hash table: a suffix key and the list of words
associated with it (`src/hashTable.js` stores `{ suffix, words }`). -/
structure HashEntry where
  suffix : String
  words : List String
deriving DecidableEq, Repr

/-- The hash table state (`class HashTable` in `src/hashTable.js`):
a fixed-size array of nullable buckets, a unique-key count and a cumulative
probe-step counter. -/
structure HashTable where
  size : Nat
  table : List (Option HashEntry)
  count : Nat
  probeSteps : Nat
deriving DecidableEq, Repr

/-- Model of `new HashTable(size)`: all buckets null, counters zero. -/
def createTable (size : Nat) : HashTable :=
  { size := size, table := List.replicate size none, count := 0, probeSteps := 0 }

/-- Model of `computeHash` from `src/hashTable.js`: polynomial rolling hash with base 31,
reduced mod `tableSize` at every step. -/
def computeHash (s : String) (tableSize : Nat) : Nat :=
  s.data.foldl (fun h c => (h * 31 + c.toNat) % tableSize) 0

/-- The probing loop of `insertHash`. `fuel` is the number of loop iterations
still allowed (`T.size - attempts`), `a` is the current value of `attempts`;
the slot probed at attempt `a` is `(h + a) % size`, matching the JS index
evolution `index = (index + 1) % T.size` from start index `h`.
Returns `none` when the table is full (JS returns `false`), otherwise the
updated bucket array and whether a new key was bound (JS increments `count`
exactly in that branch). -/
def insertLoop (s w : String) (size h : Nat) :
    Nat → Nat → List (Option HashEntry) → Option (List (Option HashEntry) × Bool)
  | 0, _, _ => none
  | fuel + 1, a, tb =>
    let idx := (h + a) % size
    match tb.getD idx none with
    | none => some (tb.set idx (some { suffix := s, words := [w] }), true)
    | some e =>
      if e.suffix = s then
        some (tb.set idx (some { suffix := e.suffix, words := e.words ++ [w] }), false)
      else
        insertLoop s w size h fuel (a + 1) tb

/-- Model of `insertHash` from `src/hashTable.js`: returns the updated table and the
boolean result (`false` only when every probed bucket holds a different key). -/
def insertHash (T : HashTable) (s w : String) : HashTable × Bool :=
  match insertLoop s w T.size (computeHash s T.size) T.size 0 T.table with
  | some (tb, isNew) =>
    ({ T with table := tb, count := T.count + (if isNew then 1 else 0) }, true)
  | none => (T, false)

/-- The probing loop of `searchHash`; additionally returns the number of
collision probes performed, because the JS code executes
`T.probeSteps++` once per collision. -/
def searchLoop (s : String) (size h : Nat) :
    Nat → Nat → List (Option HashEntry) → List String × Nat
  | 0, _, _ => ([], 0)
  | fuel + 1, a, tb =>
    let idx := (h + a) % size
    match tb.getD idx none with
    | none => ([], 0)
    | some e =>
      if e.suffix = s then (e.words, 0)
      else
        let r := searchLoop s size h fuel (a + 1) tb
        (r.1, r.2 + 1)

/-- Model of `searchHash` from `src/hashTable.js`: returns the word list found for the
key, together with the table state after the call (the JS function mutates
`T.probeSteps`, incrementing it once per collision). -/
def searchHash (T : HashTable) (s : String) : List String × HashTable :=
  let r := searchLoop s T.size (computeHash s T.size) T.size 0 T.table
  (r.1, { T with probeSteps := T.probeSteps + r.2 })

/-- The list returned by `searchHash` (the pure query path). -/
def searchWords (T : HashTable) (s : String) : List String :=
  (searchHash T s).1

/-- JS `toLowerCase` on a single character, for the ASCII range (all inputs
of interest are ASCII; `String.toLower` itself is not kernel-reducible, so the
embedding spells out the ASCII case map). -/
def charLower (c : Char) : Char :=
  if 'A' ≤ c ∧ c ≤ 'Z' then Char.ofNat (c.toNat + 32) else c

/-- JS `String.prototype.toLowerCase` restricted to the ASCII range. -/
def toLowerStr (s : String) : String := { data := s.data.map charLower }

/-- Model of `extractSuffix` from `utils.js`: lowercase the word; if it is no longer
than `len`, return all of it, otherwise `word.slice(-len)`.  JS `slice(-0)`
is `slice(0)` and returns the whole string, hence the `len = 0` case. -/
def extractSuffix (word : String) (len : Nat) : String :=
  let w := toLowerStr word
  if w.length ≤ len then w
  else if len = 0 then w
  else { data := w.data.drop (w.length - len) }

/-- The vowel list used by `countSyllables` and `computePhoneticKey`. -/
def vowelChars : List Char := ['a', 'e', 'i', 'o', 'u']

/-- Model of `isAlphabetic` from `utils.js`: the regex `^[a-zA-Z]+$`. -/
def isAlphabetic (word : String) : Bool :=
  !word.data.isEmpty &&
    word.data.all fun c =>
      (('a' ≤ c && c ≤ 'z') || ('A' ≤ c && c ≤ 'Z'))

/-- The vowel-cluster counting loop of `countSyllables` (`utils.js`): one pass
with state `previousWasVowel`; `atStart` tracks `i > 0` for the `'y'` rule. -/
def syllableLoop : List Char → Bool → Bool → Nat
  | [], _, _ => 0
  | c :: rest, prev, atStart =>
    let isV : Bool :=
      if c = 'y' then !atStart && !prev else vowelChars.contains c
    (if isV && !prev then 1 else 0) + syllableLoop rest isV false

/-- Model of `countSyllables` from `utils.js`: vowel-cluster heuristic with the silent
final `'e'` adjustment and a minimum of 1.  (JS can reach `-1` before the
final clamp; Nat truncation at 0 yields the same result after clamping.) -/
def countSyllables (word : String) : Nat :=
  let w := toLowerStr word
  let n := w.length
  if n = 0 then 0
  else
    let s := syllableLoop w.data false true
    let lastChar := w.data.getD (n - 2) ' '
    let s :=
      if 3 ≤ n ∧ w.data.getD (n - 1) ' ' = 'e' ∧
          ¬ vowelChars.contains lastChar ∧ lastChar ≠ 'y' then s - 1
      else s
    if s < 1 then 1 else s

/-- One pass of JS `String.prototype.replaceAll` over a character list for the
non-empty pattern `p :: ps`: non-overlapping matches replaced left to right,
scanning resumes after each replacement.  The extra `fuel` argument makes the
recursion structural (each step consumes at least one character, so any fuel
of at least the list length never runs out). -/
def replaceList (p : Char) (ps rep : List Char) : Nat → List Char → List Char
  | _, [] => []
  | 0, l => l
  | fuel + 1, c :: rest =>
    if (p :: ps).isPrefixOf (c :: rest) then
      rep ++ replaceList p ps rep fuel (rest.drop ps.length)
    else
      c :: replaceList p ps rep fuel rest

/-- Model of `word.replaceAll(pat, rep)` as used in `computePhoneticKey` (`utils.js`). -/
def replaceAll (s pat rep : String) : String :=
  match pat.data with
  | [] => s
  | p :: ps => { data := replaceList p ps rep.data s.data.length s.data }

/-- The normalization scan of `computePhoneticKey` (`utils.js`): collapse vowel
runs to `'V'`, map `'c'` to `'S'` before `e`/`i` and to `'K'` otherwise, and
collapse runs of any other repeated character.  `fuel` as in `replaceList`. -/
def normalizeKey : Nat → List Char → List Char
  | _, [] => []
  | 0, l => l
  | fuel + 1, c :: rest =>
    if vowelChars.contains c then
      'V' :: normalizeKey fuel (rest.dropWhile fun d => vowelChars.contains d)
    else if c = 'c' then
      (match rest.head? with
        | some d => if d = 'e' ∨ d = 'i' then 'S' else 'K'
        | none => 'K') :: normalizeKey fuel rest
    else
      c :: normalizeKey fuel (rest.dropWhile fun d => d = c)

/-- Model of `computePhoneticKey` from `utils.js`: lowercase, then the twelve ordered
`replaceAll` digraph rewrites, then the normalization scan. -/
def computePhoneticKey (word : String) : String :=
  let w := toLowerStr word
  let w := replaceAll w "ough" "O"
  let w := replaceAll w "augh" "AF"
  let w := replaceAll w "tion" "SHUN"
  let w := replaceAll w "sion" "ZHUN"
  let w := replaceAll w "ph" "F"
  let w := replaceAll w "gh" ""
  let w := replaceAll w "ck" "K"
  let w := replaceAll w "wh" "W"
  let w := replaceAll w "wr" "R"
  let w := replaceAll w "kn" "N"
  let w := replaceAll w "gn" "N"
  let w := replaceAll w "mb" "M"
  { data := normalizeKey w.data.length w.data }

/-- The count of matching trailing characters in `scoreRhyme`, computed on the
reversed character lists (the JS while loop walks both words from the end). -/
def commonSuffixLen : List Char → List Char → Nat
  | a :: as, b :: bs => if a = b then commonSuffixLen as bs + 1 else 0
  | _, _ => 0

/-- The length-similarity bonus of `scoreRhyme` (`src/rhymeScorer.js`). -/
def lengthBonus (d : Nat) : Nat :=
  if d = 0 then 20
  else if d = 1 then 15
  else if d = 2 then 10
  else if d ≤ 4 then 5
  else 0

/-- Model of `scoreRhyme` from `src/rhymeScorer.js`: 0 for identical words, otherwise
suffix-match points (15 per matching trailing character, capped at 60), a
20-point bonus for differing first characters, and the length bonus.
`word[0]` of an empty JS string is `undefined`, which compares unequal to any
character and equal to itself; `List.head?` has the same behaviour. -/
def scoreRhyme (word1 word2 : String) : Nat :=
  if word1 = word2 then 0
  else
    let m := commonSuffixLen word1.data.reverse word2.data.reverse
    let charScore := m * 15
    let charScore := if 60 < charScore then 60 else charScore
    charScore
      + (if word1.data.head? ≠ word2.data.head? then 20 else 0)
      + lengthBonus (Nat.dist word1.length word2.length)

/-- Model of `findAlliteration` from `src/allliteration.js`.  The index computation
`letter.toLowerCase().charCodeAt(0) - 97` is modelled over `Int` so that
non-letters below `'a'` give a negative index exactly as in JS; for the empty
string JS gets `NaN`, fails both range checks, then finds
`AlliterationTable[NaN]` undefined and returns `[]`, so the `none` branch
returns `[]` as well. -/
def findAlliteration (alliTable : List (List String)) (letter : String)
    (maxResults : Nat) : List String :=
  match (toLowerStr letter).data.head? with
  | none => []
  | some c =>
    let index : Int := (c.toNat : Int) - 97
    if index < 0 ∨ 25 < index then []
    else
      let wordList := alliTable.getD index.toNat []
      wordList.take maxResults

/-- Model of `findRhymes` from `src/rhymeScorer.js`: look up the suffix bucket, score
each candidate, keep positive scores, sort by score descending (JS sort with
comparator `b.score - a.score`; runtime sorts are stable, modelled by the
stable `List.mergeSort`), and return the first `maxResults` words. -/
def findRhymes (rhymeTable : HashTable) (inputWord : String)
    (suffixLength maxResults : Nat) : List String :=
  let suffix := extractSuffix inputWord suffixLength
  let candidates := searchWords rhymeTable suffix
  let scoredRhymes := candidates.filterMap fun candidateWord =>
    let score := scoreRhyme inputWord candidateWord
    if 0 < score then some (candidateWord, score) else none
  let sorted := scoredRhymes.mergeSort fun a b => b.2 ≤ a.2
  (sorted.take maxResults).map Prod.fst

/-- Model of `phoneticSearch` from `src/rhymeScorer.js`: identical pipeline, but the
key is the suffix of the input word's phonetic key and the lookup goes to the
phonetic table. -/
def phoneticSearch (phoneticTable : HashTable) (inputWord : String)
    (suffixLength maxResults : Nat) : List String :=
  let phoneticKey := computePhoneticKey inputWord
  let phoneticSuffix := extractSuffix phoneticKey suffixLength
  let candidates := searchWords phoneticTable phoneticSuffix
  let scoredRhymes := candidates.filterMap fun candidateWord =>
    let score := scoreRhyme inputWord candidateWord
    if 0 < score then some (candidateWord, score) else none
  let sorted := scoredRhymes.mergeSort fun a b => b.2 ≤ a.2
  (sorted.take maxResults).map Prod.fst

/-- The bundle of built structures passed to `query` (`tables` in
`src/index.js`). -/
structure Tables where
  rhymeTable : HashTable
  phoneticTable : HashTable
  alliterationTable : List (List String)
deriving DecidableEq, Repr

/-- The record returned by `query` (`src/index.js`). -/
structure QueryResult where
  rhymes : List String
  syllables : Nat
  alliterations : List String
deriving DecidableEq, Repr

/-- The fallback merge loop of `query` (`src/index.js` lines 20-24): append
each phonetic candidate not already present, testing membership against the
growing rhyme list. -/
def mergeUnique (rhymes phoneticRhymes : List String) : List String :=
  phoneticRhymes.foldl
    (fun acc p => if p ∈ acc then acc else acc ++ [p]) rhymes

/-- Model of `query` from `src/index.js`, instrumented: the second component records
whether the phonetic-fallback branch (`if (rhymes.length < 3)`) executed. -/
def queryStep (tables : Tables) (inputWord : String) (suffixLength : Nat) :
    QueryResult × Bool :=
  let rhymes := findRhymes tables.rhymeTable inputWord suffixLength 10
  let syllables := countSyllables inputWord
  let firstLetter : String := { data := inputWord.data.take 1 }
  let alliterations := findAlliteration tables.alliterationTable firstLetter 5
  if rhymes.length < 3 then
    let phoneticRhymes := phoneticSearch tables.phoneticTable inputWord suffixLength 7
    ({ rhymes := mergeUnique rhymes phoneticRhymes
       syllables := syllables
       alliterations := alliterations }, true)
  else
    ({ rhymes := rhymes, syllables := syllables, alliterations := alliterations }, false)

/-- Model of `query` from `src/index.js` (the value the caller receives). -/
def query (tables : Tables) (inputWord : String) (suffixLength : Nat) :
    QueryResult :=
  (queryStep tables inputWord suffixLength).1

/-- The statistics record assembled by `buildPoetryAssistant`
(`src/buildAssistant.js`).  The load factor, a JS float division, is modelled
as the exact rational; no claim depends on its rounded value. -/
structure BuildStats where
  wordCount : Nat
  rhymeTableCount : Nat
  rhymeTableProbeSteps : Nat
  rhymeTableLoadFactor : ℚ
  phoneticTableCount : Nat
  phoneticTableProbeSteps : Nat
deriving DecidableEq, Repr

/-- The record returned by `buildPoetryAssistant` (`src/buildAssistant.js`). -/
structure BuildResult where
  rhymeTable : HashTable
  phoneticTable : HashTable
  alliterationTable : List (List String)
  stats : BuildStats
deriving DecidableEq, Repr

/-- The per-line body of the build loop (`src/buildAssistant.js` lines 42-71):
skip empty lines, trim, validate, then insert into the rhyme table, append to
the alliteration bucket of the lowercased first letter, and insert into the
phonetic table.  The boolean results of both `insertHash` calls are discarded,
exactly as in the JS code. -/
def buildStep (suffixLength : Nat)
    (st : HashTable × HashTable × List (List String) × Nat) (line : String) :
    HashTable × HashTable × List (List String) × Nat :=
  if line = "" then st
  else
    let word := line.trim
    if 0 < word.length && isAlphabetic word then
      let (rhymeTable, phoneticTable, alliTable, wordCount) := st
      let suffix := extractSuffix word suffixLength
      let rhymeTable := (insertHash rhymeTable suffix word).1
      let firstLetter := charLower (word.data.headD 'a')
      let letterIndex := firstLetter.toNat - 97
      let alliTable := alliTable.set letterIndex (alliTable.getD letterIndex [] ++ [word])
      let phoneticKey := computePhoneticKey word
      let phoneticSuffix := extractSuffix phoneticKey suffixLength
      let phoneticTable := (insertHash phoneticTable phoneticSuffix word).1
      (rhymeTable, phoneticTable, alliTable, wordCount + 1)
    else st

/-- Model of `buildPoetryAssistant` from `src/buildAssistant.js`: split the word list
text on newlines, fold the build step over the lines starting from two empty
tables of size 6577 and 26 empty alliteration buckets, and package the result
with the statistics.  The `console.log` statistics printing has no effect on
the returned value and is not modelled. -/
def buildPoetryAssistant (wordlistText : String) (suffixLength : Nat) :
    BuildResult :=
  let lines := wordlistText.splitOn "\n"
  let init := (createTable 6577, createTable 6577,
    (List.replicate 26 ([] : List String)), 0)
  let (rhymeTable, phoneticTable, alliTable, wordCount) :=
    lines.foldl (buildStep suffixLength) init
  { rhymeTable := rhymeTable
    phoneticTable := phoneticTable
    alliterationTable := alliTable
    stats :=
      { wordCount := wordCount
        rhymeTableCount := rhymeTable.count
        rhymeTableProbeSteps := rhymeTable.probeSteps
        rhymeTableLoadFactor := (rhymeTable.count : ℚ) / (rhymeTable.size : ℚ)
        phoneticTableCount := phoneticTable.count
        phoneticTableProbeSteps := phoneticTable.probeSteps } }

/-- The build step instrumented with a ghost success flag: identical to
`buildStep`, except the flag additionally records whether every `insertHash`
performed so far returned `true`.  (The JS code has no counterpart of the
flag: it discards the insert results.) -/
def buildStepChecked (suffixLength : Nat)
    (st : (HashTable × HashTable × List (List String) × Nat) × Bool)
    (line : String) :
    (HashTable × HashTable × List (List String) × Nat) × Bool :=
  let (st0, ok) := st
  if line = "" then (st0, ok)
  else
    let word := line.trim
    if 0 < word.length && isAlphabetic word then
      let (rhymeTable, phoneticTable, alliTable, wordCount) := st0
      let suffix := extractSuffix word suffixLength
      let r1 := insertHash rhymeTable suffix word
      let firstLetter := charLower (word.data.headD 'a')
      let letterIndex := firstLetter.toNat - 97
      let alliTable := alliTable.set letterIndex (alliTable.getD letterIndex [] ++ [word])
      let phoneticKey := computePhoneticKey word
      let phoneticSuffix := extractSuffix phoneticKey suffixLength
      let p1 := insertHash phoneticTable phoneticSuffix word
      ((r1.1, p1.1, alliTable, wordCount + 1), ok && r1.2 && p1.2)
    else (st0, ok)

/-- Variant of `buildPoetryAssistant` with the ghost flag threaded through the fold:
the first component is the build result, the second is `true` exactly when no
`insertHash` performed by the build failed. -/
def buildPoetryAssistantChecked (wordlistText : String) (suffixLength : Nat) :
    BuildResult × Bool :=
  let lines := wordlistText.splitOn "\n"
  let init := ((createTable 6577, createTable 6577,
    (List.replicate 26 ([] : List String)), 0), true)
  let ((rhymeTable, phoneticTable, alliTable, wordCount), ok) :=
    lines.foldl (buildStepChecked suffixLength) init
  ({ rhymeTable := rhymeTable
     phoneticTable := phoneticTable
     alliterationTable := alliTable
     stats :=
       { wordCount := wordCount
         rhymeTableCount := rhymeTable.count
         rhymeTableProbeSteps := rhymeTable.probeSteps
         rhymeTableLoadFactor := (rhymeTable.count : ℚ) / (rhymeTable.size : ℚ)
         phoneticTableCount := phoneticTable.count
         phoneticTableProbeSteps := phoneticTable.probeSteps } }, ok)

/-- Table states reachable from `new HashTable(n)` by any sequence of
`insertHash` calls (successful or not). -/
inductive Reachable : HashTable → Prop where
  | create (n : Nat) : Reachable (createTable n)
  | insert (T : HashTable) (s w : String) :
      Reachable T → Reachable (insertHash T s w).1

/-- Linear-probing layout invariant: every occupied bucket lies on the probe
path of its own key, with every earlier slot of that path occupied. -/
def pathOK (size : Nat) (tb : List (Option HashEntry)) : Prop :=
  ∀ i e, i < size → tb.getD i none = some e →
    ∃ d, d < size ∧ i = (computeHash e.suffix size + d) % size ∧
      ∀ t, t < d → tb.getD ((computeHash e.suffix size + t) % size) none ≠ none

/-- At most one bucket is bound to any given key. -/
def noDupKeys (size : Nat) (tb : List (Option HashEntry)) : Prop :=
  ∀ i j e f, i < size → j < size →
    tb.getD i none = some e → tb.getD j none = some f →
    e.suffix = f.suffix → i = j

/-- Well-formedness of a table state: correct array length, probing layout
invariant and key uniqueness. -/
def tableWF (T : HashTable) : Prop :=
  T.table.length = T.size ∧ pathOK T.size T.table ∧ noDupKeys T.size T.table

/-- Reading back the slot just written. -/
theorem getD_set_self (l : List (Option HashEntry)) (i : Nat)
    (x : Option HashEntry) (h : i < l.length) :
    (l.set i x).getD i none = x := by
  simp [List.getD, List.getElem?_set_self, h]

/-- Writing one slot leaves every other slot unchanged. -/
theorem getD_set_ne (l : List (Option HashEntry)) (i j : Nat)
    (x : Option HashEntry) (h : i ≠ j) :
    (l.set i x).getD j none = l.getD j none := by
  simp [List.getD, List.getElem?_set_ne h]

/-- Every slot of a freshly created table is empty. -/
theorem getD_replicate_none (n i : Nat) :
    (List.replicate n (none : Option HashEntry)).getD i none = none := by
  induction n generalizing i with
  | zero => simp [List.getD]
  | succ m ih =>
    cases i with
    | zero => simp [List.getD]
    | succ k =>
      simp [List.getD, List.replicate_succ]

/-- Within one wrap of the table, distinct probe distances land on distinct
slots. -/
theorem probe_inj {size d a h : Nat} (hd : d < size) (ha : a < size)
    (heq : (h + d) % size = (h + a) % size) : d = a := by
  have hmod : d % size = a % size := Nat.ModEq.add_left_cancel' h heq
  rwa [Nat.mod_eq_of_lt hd, Nat.mod_eq_of_lt ha] at hmod

/-- A successful `insertLoop` never touches a bucket bound to a different key:
the inserted entry goes to an empty bucket or to the bucket of the same key. -/
theorem insertLoop_keeps_mismatch (s w : String) (size h : Nat) :
    ∀ (fuel a : Nat) (tb tb' : List (Option HashEntry)) (isNew : Bool),
      insertLoop s w size h fuel a tb = some (tb', isNew) →
      ∀ k e, tb.getD k none = some e → e.suffix ≠ s →
        tb'.getD k none = some e := by
  intro fuel
  induction fuel with
  | zero =>
    intro a tb tb' isNew hins
    simp [insertLoop] at hins
  | succ fuel ih =>
    intro a tb tb' isNew hins k e hk hne
    rw [insertLoop] at hins
    cases hslot : tb.getD ((h + a) % size) none with
    | none =>
      rw [hslot] at hins
      simp only [Option.some.injEq, Prod.mk.injEq] at hins
      obtain ⟨htb, _⟩ := hins
      have hkne : k ≠ (h + a) % size := by
        intro hkeq
        rw [hkeq, hslot] at hk
        exact Option.noConfusion hk
      rw [← htb, getD_set_ne _ _ _ _ (fun hx => hkne hx.symm), hk]
    | some e0 =>
      rw [hslot] at hins
      dsimp only at hins
      by_cases hs : e0.suffix = s
      · rw [if_pos hs] at hins
        simp only [Option.some.injEq, Prod.mk.injEq] at hins
        obtain ⟨htb, _⟩ := hins
        have hkne : k ≠ (h + a) % size := by
          intro hkeq
          rw [hkeq, hslot] at hk
          have h1 : e0 = e := by injection hk
          exact hne (h1 ▸ hs)
        rw [← htb, getD_set_ne _ _ _ _ (fun hx => hkne hx.symm), hk]
      · rw [if_neg hs] at hins
        exact ih (a + 1) tb tb' isNew hins k e hk hne

/-- Core of the round-trip property: a successful probing insert leaves the
inserted word reachable by the search probing loop started at the same hash. -/
theorem insertLoop_search (s w : String) (size h : Nat) :
    ∀ (fuel a : Nat) (tb tb' : List (Option HashEntry)) (isNew : Bool),
      fuel + a ≤ size → tb.length = size →
      insertLoop s w size h fuel a tb = some (tb', isNew) →
      w ∈ (searchLoop s size h fuel a tb').1 := by
  intro fuel
  induction fuel with
  | zero =>
    intro a tb tb' isNew hfa hlen hins
    simp [insertLoop] at hins
  | succ fuel ih =>
    intro a tb tb' isNew hfa hlen hins
    have hsize : 0 < size := by omega
    have hidx : (h + a) % size < size := Nat.mod_lt _ hsize
    have hidxlen : (h + a) % size < tb.length := by omega
    rw [insertLoop] at hins
    cases hslot : tb.getD ((h + a) % size) none with
    | none =>
      rw [hslot] at hins
      dsimp only at hins
      simp only [Option.some.injEq, Prod.mk.injEq] at hins
      obtain ⟨htb, _⟩ := hins
      rw [searchLoop, ← htb,
        getD_set_self _ _ _ hidxlen]
      simp
    | some e =>
      rw [hslot] at hins
      dsimp only at hins
      by_cases hs : e.suffix = s
      · rw [if_pos hs] at hins
        simp only [Option.some.injEq, Prod.mk.injEq] at hins
        obtain ⟨htb, _⟩ := hins
        rw [searchLoop, ← htb,
          getD_set_self _ _ _ hidxlen]
        simp [hs]
      · rw [if_neg hs] at hins
        have hkeep := insertLoop_keeps_mismatch s w size h fuel (a + 1)
          tb tb' isNew hins ((h + a) % size) e hslot hs
        rw [searchLoop, hkeep]
        dsimp only
        rw [if_neg hs]
        exact ih (a + 1) tb tb' isNew (by omega) hlen hins

/-- A successful probing insert preserves the table length, the probing layout
invariant and key uniqueness.  The hypothesis on `a` states the loop invariant
of `insertHash`: every slot probed before attempt `a` is occupied by a
different key. -/
theorem insertLoop_preserves (s w : String) (size : Nat) :
    ∀ (fuel a : Nat) (tb tb' : List (Option HashEntry)) (isNew : Bool),
      fuel + a = size →
      tb.length = size →
      (∀ t, t < a → ∃ e, tb.getD ((computeHash s size + t) % size) none = some e ∧
        e.suffix ≠ s) →
      pathOK size tb → noDupKeys size tb →
      insertLoop s w size (computeHash s size) fuel a tb = some (tb', isNew) →
      tb'.length = size ∧ pathOK size tb' ∧ noDupKeys size tb' := by
  intro fuel
  induction fuel with
  | zero =>
    intro a tb tb' isNew hfa hlen hpre hpath hdup hins
    simp [insertLoop] at hins
  | succ fuel ih =>
    intro a tb tb' isNew hfa hlen hpre hpath hdup hins
    have hsize : 0 < size := by omega
    have ha : a < size := by omega
    have hidx : (computeHash s size + a) % size < size := Nat.mod_lt _ hsize
    have hidxlen : (computeHash s size + a) % size < tb.length := by omega
    rw [insertLoop] at hins
    cases hslot : tb.getD ((computeHash s size + a) % size) none with
    | none =>
      rw [hslot] at hins
      dsimp only at hins
      simp only [Option.some.injEq, Prod.mk.injEq] at hins
      obtain ⟨htb, _⟩ := hins
      subst htb
      have h_at_idx :
          (tb.set ((computeHash s size + a) % size)
              (some { suffix := s, words := [w] })).getD
            ((computeHash s size + a) % size) none =
            some { suffix := s, words := [w] } :=
        getD_set_self _ _ _ hidxlen
      have h_off : ∀ j, j ≠ (computeHash s size + a) % size →
          (tb.set ((computeHash s size + a) % size)
              (some { suffix := s, words := [w] })).getD j none =
            tb.getD j none := by
        intro j hj
        exact getD_set_ne _ _ _ _ (fun hx => hj hx.symm)
      have h_nonnone : ∀ j, tb.getD j none ≠ none →
          (tb.set ((computeHash s size + a) % size)
              (some { suffix := s, words := [w] })).getD j none ≠ none := by
        intro j hj
        by_cases hji : j = (computeHash s size + a) % size
        · rw [hji, h_at_idx]
          exact Option.noConfusion
        · rw [h_off j hji]
          exact hj
      -- any occupied slot of the new table other than the written one that
      -- carries the inserted key contradicts the loop invariant
      have key : ∀ j f, j < size → j ≠ (computeHash s size + a) % size →
          tb.getD j none = some f → f.suffix = s → False := by
        intro j f hj hjne hjf hfs
        obtain ⟨d, hd, hjeq, hpathj⟩ := hpath j f hj hjf
        rw [hfs] at hjeq hpathj
        rcases Nat.lt_trichotomy d a with hlt | heq | hgt
        · obtain ⟨e', he', hes⟩ := hpre d hlt
          rw [← hjeq] at he'
          rw [hjf] at he'
          have : e' = f := by injection he'.symm
          exact hes (this ▸ hfs)
        · exact hjne (heq ▸ hjeq)
        · exact hpathj a hgt hslot
      refine ⟨by rw [List.length_set]; exact hlen, ?_, ?_⟩
      · -- pathOK
        intro i e hi hie
        by_cases hieq : i = (computeHash s size + a) % size
        · rw [hieq, h_at_idx] at hie
          have he : e = { suffix := s, words := [w] } := by injection hie.symm
          subst he
          refine ⟨a, ha, by rw [hieq], ?_⟩
          intro t ht
          obtain ⟨e', he', _⟩ := hpre t ht
          exact h_nonnone _ (by rw [he']; exact Option.noConfusion)
        · rw [h_off i hieq] at hie
          obtain ⟨d, hd, hieq', hpathi⟩ := hpath i e hi hie
          exact ⟨d, hd, hieq', fun t ht => h_nonnone _ (hpathi t ht)⟩
      · -- noDupKeys
        intro i j e f hi hj hie hjf hsuf
        by_cases hieq : i = (computeHash s size + a) % size
        · by_cases hjeq : j = (computeHash s size + a) % size
          · rw [hieq, hjeq]
          · rw [hieq, h_at_idx] at hie
            have he : e = { suffix := s, words := [w] } := by injection hie.symm
            rw [h_off j hjeq] at hjf
            exact (key j f hj hjeq hjf (by rw [← hsuf, he])).elim
        · by_cases hjeq : j = (computeHash s size + a) % size
          · rw [hjeq, h_at_idx] at hjf
            have hf : f = { suffix := s, words := [w] } := by injection hjf.symm
            rw [h_off i hieq] at hie
            exact (key i e hi hieq hie (by rw [hsuf, hf])).elim
          · rw [h_off i hieq] at hie
            rw [h_off j hjeq] at hjf
            exact hdup i j e f hi hj hie hjf hsuf
    | some e0 =>
      rw [hslot] at hins
      dsimp only at hins
      by_cases hs : e0.suffix = s
      · rw [if_pos hs] at hins
        simp only [Option.some.injEq, Prod.mk.injEq] at hins
        obtain ⟨htb, _⟩ := hins
        subst htb
        have h_at_idx :
            (tb.set ((computeHash s size + a) % size)
                (some { suffix := e0.suffix, words := e0.words ++ [w] })).getD
              ((computeHash s size + a) % size) none =
              some { suffix := e0.suffix, words := e0.words ++ [w] } :=
          getD_set_self _ _ _ hidxlen
        have h_off : ∀ j, j ≠ (computeHash s size + a) % size →
            (tb.set ((computeHash s size + a) % size)
                (some { suffix := e0.suffix, words := e0.words ++ [w] })).getD
              j none = tb.getD j none := by
          intro j hj
          exact getD_set_ne _ _ _ _ (fun hx => hj hx.symm)
        -- every occupied slot of the new table was occupied with the same key
        have hcorr : ∀ j g,
            (tb.set ((computeHash s size + a) % size)
                (some { suffix := e0.suffix, words := e0.words ++ [w] })).getD
              j none = some g →
            ∃ g0, tb.getD j none = some g0 ∧ g0.suffix = g.suffix := by
          intro j g hjg
          by_cases hji : j = (computeHash s size + a) % size
          · rw [hji, h_at_idx] at hjg
            have hg : g = { suffix := e0.suffix, words := e0.words ++ [w] } := by
              injection hjg.symm
            exact ⟨e0, hji ▸ hslot, by rw [hg]⟩
          · rw [h_off j hji] at hjg
            exact ⟨g, hjg, rfl⟩
        have h_nonnone : ∀ j, tb.getD j none ≠ none →
            (tb.set ((computeHash s size + a) % size)
                (some { suffix := e0.suffix, words := e0.words ++ [w] })).getD
              j none ≠ none := by
          intro j hj
          by_cases hji : j = (computeHash s size + a) % size
          · rw [hji, h_at_idx]
            exact Option.noConfusion
          · rw [h_off j hji]
            exact hj
        refine ⟨by rw [List.length_set]; exact hlen, ?_, ?_⟩
        · intro i g hi hig
          obtain ⟨g0, hg0, hg0s⟩ := hcorr i g hig
          obtain ⟨d, hd, hieq, hpathi⟩ := hpath i g0 hi hg0
          rw [hg0s] at hieq hpathi
          exact ⟨d, hd, hieq, fun t ht => h_nonnone _ (hpathi t ht)⟩
        · intro i j g f hi hj hig hjf hsuf
          obtain ⟨g0, hg0, hg0s⟩ := hcorr i g hig
          obtain ⟨f0, hf0, hf0s⟩ := hcorr j f hjf
          exact hdup i j g0 f0 hi hj hg0 hf0 (by rw [hg0s, hf0s, hsuf])
      · rw [if_neg hs] at hins
        refine ih (a + 1) tb tb' isNew (by omega) hlen ?_ hpath hdup hins
        intro t ht
        by_cases hta : t = a
        · exact ⟨e0, hta ▸ hslot, hs⟩
        · exact hpre t (by omega)

/-- A freshly created table is well-formed. -/
theorem createTable_wf (n : Nat) : tableWF (createTable n) := by
  refine ⟨by simp [createTable], ?_, ?_⟩
  · intro i e _ hie
    rw [createTable] at hie
    dsimp only at hie
    rw [getD_replicate_none] at hie
    exact Option.noConfusion hie
  · intro i j e f _ _ hie _ _
    rw [createTable] at hie
    dsimp only at hie
    rw [getD_replicate_none] at hie
    exact Option.noConfusion hie

/-- The operation `insertHash` preserves well-formedness. -/
theorem insertHash_wf (T : HashTable) (s w : String) (hwf : tableWF T) :
    tableWF (insertHash T s w).1 := by
  obtain ⟨hlen, hpath, hdup⟩ := hwf
  rw [insertHash]
  cases hins : insertLoop s w T.size (computeHash s T.size) T.size 0 T.table with
  | none => exact ⟨hlen, hpath, hdup⟩
  | some r =>
    obtain ⟨tb', isNew⟩ := r
    have := insertLoop_preserves s w T.size T.size 0 T.table tb' isNew
      (by omega) hlen (by intro t ht; omega) hpath hdup hins
    exact ⟨this.1, this.2.1, this.2.2⟩

/-- Every reachable table state is well-formed. -/
theorem reachable_wf : ∀ T : HashTable, Reachable T → tableWF T := by
  intro T h
  induction h with
  | create n => exact createTable_wf n
  | insert T s w _ ih => exact insertHash_wf T s w ih

/-- C6: Insert/search round-trip: for every table state reachable by inserts
from create, every key `s` and word `w`, if `insertHash T s w` succeeds then
`searchHash` on the resulting table with key `s` returns a list containing
`w`. -/
theorem insertHash_searchHash_roundtrip (T : HashTable) (s w : String)
    (hreach : Reachable T) (hsucc : (insertHash T s w).2 = true) :
    w ∈ searchWords (insertHash T s w).1 s := by
  have hlen := (reachable_wf T hreach).1
  cases hins : insertLoop s w T.size (computeHash s T.size) T.size 0 T.table with
  | none =>
    rw [insertHash, hins] at hsucc
    exact Bool.noConfusion hsucc
  | some r =>
    obtain ⟨tb', isNew⟩ := r
    rw [insertHash, hins]
    dsimp only [searchWords, searchHash]
    exact insertLoop_search s w T.size (computeHash s T.size) T.size 0
      T.table tb' isNew (by omega) hlen hins

/-- Witness for C6 at a concrete input: inserting word "cat" under key "at"
into a fresh size-3 table succeeds, and searching "at" afterwards finds
"cat". -/
theorem insertHash_searchHash_roundtrip_witness :
    (insertHash (createTable 3) "at" "cat").2 = true ∧
      "cat" ∈ searchWords (insertHash (createTable 3) "at" "cat").1 "at" :=
  ⟨by decide,
    insertHash_searchHash_roundtrip (createTable 3) "at" "cat"
      (Reachable.create 3) (by decide)⟩

/-- C7: in every table state reachable from create by any sequence of
`insertHash` operations, at most one bucket is bound to any given key: no two
distinct bucket indices hold entries with the same suffix key. -/
theorem reachable_noDupKeys (T : HashTable) (hreach : Reachable T) :
    noDupKeys T.size T.table :=
  (reachable_wf T hreach).2.2

/-- Witness for C7 at a concrete input: a size-2 table holding the two
colliding keys "a" and "c" has no duplicated key. -/
theorem reachable_noDupKeys_witness :
    noDupKeys
      ((insertHash ((insertHash (createTable 2) "a" "wa").1) "c" "wc").1).size
      ((insertHash ((insertHash (createTable 2) "a" "wa").1) "c" "wc").1).table :=
  reachable_noDupKeys _
    (Reachable.insert _ "c" "wc" (Reachable.insert _ "a" "wa" (Reachable.create 2)))


/-- C1 counterexample: the claim "searchHash returns its result while leaving
the table state — including the cumulative probe-step counter — exactly equal
to its input state" fails at a concrete input.  In the size-2 table holding
the colliding keys "a" and "c", searching "c" probes past the bucket of "a"
and increments `probeSteps` from 0 to 1, so the output state differs from the
input state. -/
theorem searchHash_mutates_probeSteps :
    (searchHash ((insertHash ((insertHash (createTable 2) "a" "wa").1) "c" "wc").1)
        "c").2 ≠
      (insertHash ((insertHash (createTable 2) "a" "wa").1) "c" "wc").1 := by
  decide

/-- C1 amended: `searchHash` leaves the bucket array, the size and the count
of the table exactly equal to its input state; only the cumulative probe-step
counter may change, and it never decreases (it grows by one per collision
probed). -/
theorem searchHash_preserves_buckets (T : HashTable) (s : String) :
    (searchHash T s).2.size = T.size ∧
      (searchHash T s).2.table = T.table ∧
      (searchHash T s).2.count = T.count ∧
      T.probeSteps ≤ (searchHash T s).2.probeSteps :=
  ⟨rfl, rfl, rfl, Nat.le_add_right _ _⟩

/-- The length-similarity bonus never exceeds 20. -/
theorem lengthBonus_le (d : Nat) : lengthBonus d ≤ 20 := by
  rw [lengthBonus]
  repeat' split
  all_goals omega

/-- C8: `scoreRhyme` always returns a value in [0, 100] (the upper bound
100 = 60 + 20 + 20 being attained, e.g. by "bending"/"sending"), and
identical words score 0.  The result type is `Nat`, so the lower bound 0 is
implicit in the type. -/
theorem scoreRhyme_range :
    (∀ w1 w2 : String, scoreRhyme w1 w2 ≤ 100) ∧
      (∀ w : String, scoreRhyme w w = 0) ∧
      (∃ w1 w2 : String, scoreRhyme w1 w2 = 100) := by
  refine ⟨?_, ?_, ⟨"bending", "sending", by decide⟩⟩
  · intro w1 w2
    rw [scoreRhyme]
    split
    · omega
    · dsimp only
      have h1 : (if 60 < commonSuffixLen w1.data.reverse w2.data.reverse * 15
          then 60 else commonSuffixLen w1.data.reverse w2.data.reverse * 15) ≤ 60 := by
        split <;> omega
      have h2 : (if w1.data.head? ≠ w2.data.head? then 20 else 0) ≤ 20 := by
        split <;> omega
      have h3 := lengthBonus_le (Nat.dist w1.length w2.length)
      omega
  · intro w
    rw [scoreRhyme, if_pos rfl]

/-- Counting matching characters from the ends of two words is symmetric. -/
theorem commonSuffixLen_comm (a b : List Char) :
    commonSuffixLen a b = commonSuffixLen b a := by
  induction a generalizing b with
  | nil => cases b <;> rfl
  | cons x xs ih =>
    cases b with
    | nil => rfl
    | cons y ys =>
      rw [commonSuffixLen, commonSuffixLen]
      by_cases hxy : x = y
      · rw [if_pos hxy, if_pos hxy.symm, ih]
      · rw [if_neg hxy, if_neg (fun hx => hxy hx.symm)]

/-- C9: `scoreRhyme` is symmetric on distinct words: the suffix-match count,
the first-letter condition and the length difference are each symmetric in
the two words. -/
theorem scoreRhyme_comm (w1 w2 : String) (h : w1 ≠ w2) :
    scoreRhyme w1 w2 = scoreRhyme w2 w1 := by
  have h2 : ¬ (w2 = w1) := fun hx => h hx.symm
  rw [scoreRhyme, scoreRhyme, if_neg h, if_neg h2]
  dsimp only
  rw [commonSuffixLen_comm, Nat.dist_comm]
  by_cases hh : w1.data.head? = w2.data.head?
  · have c1 : ¬ (w1.data.head? ≠ w2.data.head?) := fun hne => hne hh
    have c2 : ¬ (w2.data.head? ≠ w1.data.head?) := fun hne => hne hh.symm
    rw [if_neg c1, if_neg c2]
  · have c2 : w2.data.head? ≠ w1.data.head? := fun hx => hh hx.symm
    rw [if_pos hh, if_pos c2]

/-- Witness for C9 at a concrete input: "cat" and "hat" are distinct and
score the same in both orders. -/
theorem scoreRhyme_comm_witness :
    ("cat" : String) ≠ "hat" ∧ scoreRhyme "cat" "hat" = scoreRhyme "hat" "cat" :=
  ⟨by decide, scoreRhyme_comm "cat" "hat" (by decide)⟩

/-- C5 counterexample: `computePhoneticKey("knight")` does not return "nVt".
The `kn → "N"` rewrite inserts a capital N (like every rewrite-rule output),
and nothing later lowercases it, so the trace is "knight" → (gh → "") "knit"
→ (kn → "N") "Nit" → normalization "NVt". -/
theorem computePhoneticKey_knight_ne :
    computePhoneticKey "knight" ≠ "nVt" := by decide

/-- C5 amended: `computePhoneticKey("knight")` returns "NVt" (capital N from
the `kn → "N"` rewrite, vowel collapsed to V, trailing t kept). -/
theorem computePhoneticKey_knight :
    computePhoneticKey "knight" = "NVt" := by decide

/-- C4: `query` invokes the phonetic search if and only if fewer than 3
orthographic rhymes survive the scoring/truncation step — in particular a
word with exactly 2 surviving orthographic rhymes triggers the phonetic
search and a word with exactly 3 does not. -/
theorem queryStep_phonetic_iff (tables : Tables) (w : String) (sl : Nat) :
    (queryStep tables w sl).2 = true ↔
      (findRhymes tables.rhymeTable w sl 10).length < 3 := by
  rw [queryStep]
  dsimp only
  split
  · next hlt => simpa using hlt
  · next hge => simpa using hge

/-- Appending with a membership guard grows a list by at most one element per
candidate. -/
theorem foldl_merge_length (p : List String) :
    ∀ r : List String,
      (p.foldl (fun acc q => if q ∈ acc then acc else acc ++ [q]) r).length ≤
        r.length + p.length := by
  induction p with
  | nil => intro r; simp
  | cons x xs ih =>
    intro r
    rw [List.foldl]
    have hstep : ((if x ∈ r then r else r ++ [x]).length) ≤ r.length + 1 := by
      split <;> simp
    have := ih (if x ∈ r then r else r ++ [x])
    simp only [List.length_cons]
    omega

/-- The fallback merge adds at most one rhyme per phonetic candidate. -/
theorem mergeUnique_length_le (r p : List String) :
    (mergeUnique r p).length ≤ r.length + p.length := foldl_merge_length p r

/-- The function `findRhymes` returns at most `maxResults` words. -/
theorem findRhymes_length_le (T : HashTable) (w : String) (sl m : Nat) :
    (findRhymes T w sl m).length ≤ m := by
  rw [findRhymes]
  dsimp only
  simp only [List.length_map, List.length_take]
  exact Nat.min_le_left _ _

/-- The function `phoneticSearch` returns at most `maxResults` words. -/
theorem phoneticSearch_length_le (T : HashTable) (w : String) (sl m : Nat) :
    (phoneticSearch T w sl m).length ≤ m := by
  rw [phoneticSearch]
  dsimp only
  simp only [List.length_map, List.length_take]
  exact Nat.min_le_left _ _

/-- The rhyme list returned by `query` never has more than 10 entries: the
fallback only runs when at most 2 orthographic rhymes survived, and it
appends at most 7 phonetic candidates. -/
theorem query_rhymes_le_ten_aux (tables : Tables) (w : String) (sl : Nat) :
    (query tables w sl).rhymes.length ≤ 10 := by
  rw [query, queryStep]
  dsimp only
  split
  · next hlt =>
    have hm := mergeUnique_length_le (findRhymes tables.rhymeTable w sl 10)
      (phoneticSearch tables.phoneticTable w sl 7)
    have hp := phoneticSearch_length_le tables.phoneticTable w sl 7
    dsimp only
    omega
  · exact findRhymes_length_le tables.rhymeTable w sl 10

/-- C3 counterexample: the claim that the rhyme list returned by `query` can
exceed 10 entries for some tables, word and suffix length is false — no such
input exists, because the fallback branch only runs when at most 2
orthographic rhymes survived and appends at most 7 more. -/
theorem query_rhymes_no_overflow :
    ¬ ∃ (tables : Tables) (w : String) (sl : Nat),
        10 < (query tables w sl).rhymes.length := by
  rintro ⟨tables, w, sl, hgt⟩
  have := query_rhymes_le_ten_aux tables w sl
  omega

/-- C3 amended: for every built tables, input word and suffix length, the
rhymes list returned by `query` has length at most 10 (at most 9 = 2 + 7 when
the phonetic fallback ran). -/
theorem query_rhymes_le_ten (tables : Tables) (w : String) (sl : Nat) :
    (query tables w sl).rhymes.length ≤ 10 :=
  query_rhymes_le_ten_aux tables w sl

/-- C10: for every input letter whose lowercased first character is not a
lowercase letter (codepoint outside [97, 122], e.g. a digit or punctuation),
`findAlliteration` returns the empty list — the guarded index (strictly
between 0 and 25 whenever the bucket array is read) is never used out of
range. -/
theorem findAlliteration_nonletter (alliTable : List (List String))
    (letter : String) (maxResults : Nat)
    (h : ((toLowerStr letter).data.head?.all fun c =>
      decide (c.toNat < 97 ∨ 122 < c.toNat)) = true) :
    findAlliteration alliTable letter maxResults = [] := by
  rw [findAlliteration]
  cases hc : (toLowerStr letter).data.head? with
  | none => rfl
  | some c =>
    rw [hc] at h
    simp only [Option.all_some, decide_eq_true_eq] at h
    dsimp only
    rw [if_pos]
    rcases h with h | h
    · left; omega
    · right; omega

/-- Witness for C10 at a concrete input: the digit "7" yields the empty list
on the empty bucket table. -/
theorem findAlliteration_nonletter_witness :
    ((toLowerStr "7").data.head?.all fun c =>
        decide (c.toNat < 97 ∨ 122 < c.toNat)) = true ∧
      findAlliteration [] "7" 5 = [] :=
  ⟨by decide, findAlliteration_nonletter [] "7" 5 (by decide)⟩

/-- The instrumented build step computes exactly the state of the plain build
step; the ghost flag rides alongside without influencing it. -/
theorem buildStepChecked_fst (sl : Nat)
    (stok : (HashTable × HashTable × List (List String) × Nat) × Bool)
    (line : String) :
    (buildStepChecked sl stok line).1 = buildStep sl stok.1 line := by
  obtain ⟨⟨rt, pt, alli, wc⟩, ok⟩ := stok
  rw [buildStepChecked, buildStep]
  dsimp only
  by_cases h1 : line = ""
  · rw [if_pos h1, if_pos h1]
  · rw [if_neg h1, if_neg h1]
    by_cases h2 : (0 < line.trim.length && isAlphabetic line.trim) = true
    · rw [if_pos h2, if_pos h2]
    · rw [if_neg h2, if_neg h2]

/-- Folding the instrumented build step yields the same state as folding the
plain one. -/
theorem build_foldl_fst (sl : Nat) :
    ∀ (lines : List String)
      (stok : (HashTable × HashTable × List (List String) × Nat) × Bool),
      (lines.foldl (buildStepChecked sl) stok).1 =
        lines.foldl (buildStep sl) stok.1 := by
  intro lines
  induction lines with
  | nil => intro stok; rfl
  | cons l ls ih =>
    intro stok
    rw [List.foldl, List.foldl, ih (buildStepChecked sl stok l),
      buildStepChecked_fst sl stok l]

/-- Failure is possible: `insertHash` really can fail: on a table whose every bucket is occupied by
a different key it returns `false` (the CapacityExhausted condition), so the
failure the build discards is not vacuous. -/
theorem insertHash_capacity_exhausted :
    (insertHash
        { size := 2,
          table := [some { suffix := "a", words := ["x"] },
            some { suffix := "b", words := ["y"] }],
          count := 2, probeSteps := 0 } "q" "w").2 = false := by
  decide

/-- C2: the value `buildPoetryAssistant` returns to its caller is exactly the
first component of the instrumented build, whatever the ghost
all-inserts-succeeded flag is: for every word list and suffix length the
returned record (tables and stats) carries no information about whether some
`insertHash` performed by the build failed — a failed insert is silently
dropped, never surfaced. -/
theorem buildPoetryAssistant_no_failure_channel (text : String) (sl : Nat) :
    buildPoetryAssistant text sl = (buildPoetryAssistantChecked text sl).1 := by
  rw [buildPoetryAssistant, buildPoetryAssistantChecked]
  dsimp only
  rw [← build_foldl_fst sl (text.splitOn "\n")
    ((createTable 6577, createTable 6577, List.replicate 26 [], 0), true)]
